import Mathlib

/-!
# image-syncer: a shallow embedding of `image/image.go`

The program mirrors container images into a private registry.  This file embeds
the pure parts of `image.go` (`cleanImages`, `parseTargetImage`,
`getImagesFromFile`, the version handling of `Complete`, `Validate`,
`getKubeadmVersion`, and the fan-out of `PushImages`) as Lean functions and
proves properties of them.

Conventions of the embedding:

* a Go `string` / `[]byte` is the list of its characters (`GoString`).  The
  functions that work on bytes only (`Split`, `Join`, `HasPrefix`, `Contains`,
  and with them `cleanImages` and `parseTargetImage`) are plain list functions,
  so their theorems, which hold for every list, also cover an arbitrary byte
  sequence read as the list of the characters with those codes; `TrimSpace` and
  the JSON decoder read the elements as Unicode code points;
* a Go `error` is identified with its message (`GoError`); `nil` is `none`;
* a function returning `(T, error)` returns `Except GoError T`;
* calls to collaborators (the docker client, the process runner, the
  environment) are explicit arguments carrying the outcome of the call.
-/

set_option autoImplicit false

/-- A Go string, as the sequence of its characters. -/
abbrev GoString := List Char

/-- A Go error value, identified by the text `Error()` reports. -/
abbrev GoError := GoString

/-- Go string literal. -/
def str (s : String) : GoString := s.toList

/-! ## The parts of Go's `strings` package the program calls -/

namespace strings

/-- Go `strings.HasPrefix(s, prefix)`. -/
def HasPrefix (s pre : GoString) : Bool := pre.isPrefixOf s

/-- Go `strings.Contains(s, substr)`: `substr` occurs at some offset of `s`. -/
def Contains : GoString → GoString → Bool
  | [], substr => substr.isPrefixOf []
  | c :: cs, substr => substr.isPrefixOf (c :: cs) || Contains cs substr

/-- Scanning loop of Go `strings.Split` for a non-empty separator: cut at the
leftmost occurrence of `sep`, skip over it (`skip` counts the characters of the
separator still to be skipped), and continue behind it. -/
def splitSeg (sep : GoString) : Nat → GoString → List GoString
  | _, [] => [[]]
  | skip + 1, _ :: cs => splitSeg sep skip cs
  | 0, c :: cs =>
    if sep.isPrefixOf (c :: cs) then [] :: splitSeg sep (sep.length - 1) cs
    else
      match splitSeg sep 0 cs with
      | [] => [[c]]
      | seg :: segs => (c :: seg) :: segs

/-- Go `strings.Split(s, sep)`: with an empty separator the string is exploded
into its characters, otherwise it is cut at every non-overlapping occurrence of
the separator, so that `n` occurrences give `n + 1` segments. -/
def Split (s sep : GoString) : List GoString :=
  if sep = [] then s.map (fun c => [c]) else splitSeg sep 0 s

/-- Go `strings.Join(elems, sep)`. -/
def Join : List GoString → GoString → GoString
  | [], _ => []
  | [a], _ => a
  | a :: b :: rest, sep => a ++ sep ++ Join (b :: rest) sep

/-- Go `unicode.IsSpace`: the Latin-1 spaces and the characters with the Unicode
White_Space property. -/
def IsSpace (c : Char) : Bool :=
  let n := c.toNat
  (9 ≤ n && n ≤ 13) || n = 32 || n = 0x85 || n = 0xA0 || n = 0x1680 ||
  (0x2000 ≤ n && n ≤ 0x200A) || n = 0x2028 || n = 0x2029 || n = 0x202F ||
  n = 0x205F || n = 0x3000

/-- Go `strings.TrimSpace(s)`: `s` without its leading and trailing white space. -/
def TrimSpace (s : GoString) : GoString :=
  ((s.dropWhile IsSpace).reverse.dropWhile IsSpace).reverse

end strings

/-! ## `image.go`: constants and data -/

/-- Constant `Kubeadm`. -/
def Kubeadm : GoString := str "kubeadm"

/-- Constant `IgnoreKey`, the prefix of the diagnostic lines to strip. -/
def IgnoreKey : GoString := str "W0508"

/-- Constant `User`. -/
def User : GoString := str "user"

/-- Constant `Password`. -/
def Password : GoString := str "password"

/-- Type `DefaultOption` of `option.go`. -/
structure DefaultOption where
  PushKubernetes : Bool
  PushImages : Bool
  deriving DecidableEq

/-- Type `KubernetesOption` of `option.go`. -/
structure KubernetesOption where
  Version : GoString
  deriving DecidableEq

/-- Type `Config` of `option.go`. -/
structure Config where
  Default : DefaultOption
  Kubernetes : KubernetesOption
  Images : List GoString
  deriving DecidableEq

/-- Type `Image` of `image.go`.  The two client handles (`exec`, `docker`) carry
no data of their own; the outcomes of the calls made through them are arguments
of the functions below. -/
structure Image where
  KubernetesVersion : GoString
  ImageRepository : GoString
  User : GoString
  Password : GoString
  Cfg : Config
  deriving DecidableEq

/-! ## `cleanImages` -/

/-- The counting loop of `cleanImages`: `index` is incremented once for every
element of `parts` that starts with `IgnoreKey`. -/
def cleanImagesCount : List GoString → Nat → Nat
  | [], index => index
  | p :: parts, index =>
    if strings.HasPrefix p IgnoreKey then cleanImagesCount parts (index + 1)
    else cleanImagesCount parts index

/-- Method `cleanImages` of `image.go` (and the copy in `demo.go`). -/
def cleanImages (inp : GoString) : GoString :=
  let inStr := inp
  if !strings.Contains inStr IgnoreKey then inp
  else
    let parts := strings.Split inStr (str "\n")
    let index := cleanImagesCount parts 0
    let newInStr := strings.Join (parts.drop index) (str "\n")
    newInStr

/-! ## `parseTargetImage` and `getImagesFromFile` -/

/-- Method `parseTargetImage` of `image.go`. -/
def parseTargetImage (img : Image) (imageToPush : GoString) : Except GoError GoString :=
  let parts := strings.Split imageToPush (str "/")
  if parts.length < 2 then
    .error (str "invaild image format: " ++ imageToPush)
  else
    .ok (img.ImageRepository ++ str "/" ++ parts.getD (parts.length - 1) [])

/-- The loop of `getImagesFromFile`: `imgs` is the list built so far. -/
def getImagesFromFileLoop : List GoString → List GoString → Except GoError (List GoString)
  | [], imgs => .ok imgs
  | i :: rest, imgs =>
    let imageStr := strings.TrimSpace i
    if imageStr.length = 0 then getImagesFromFileLoop rest imgs
    else if strings.Contains imageStr (str " ") then
      .error (str "error image format: " ++ imageStr)
    else getImagesFromFileLoop rest (imgs ++ [imageStr])

/-- Method `getImagesFromFile` of `image.go`. -/
def getImagesFromFile (img : Image) : Except GoError (List GoString) :=
  getImagesFromFileLoop img.Cfg.Images []

/-! ## Collaborators -/

/-- What `exec.Command(...).CombinedOutput()` returns. -/
structure CmdResult where
  out : GoString
  err : Option GoError

/-- The outcomes of the calls the program makes to its collaborators. -/
structure World where
  /-- `client.NewClientWithOpts(...)`: the error, if any. -/
  newClient : Option GoError
  /-- `os.Getenv`. -/
  getenv : GoString → GoString
  /-- `exec.LookPath(name)`: the error, if any. -/
  lookPath : GoString → Option GoError
  /-- `exec.Command(argv...).CombinedOutput()`. -/
  command : List GoString → CmdResult
  /-- `docker.Ping`: the error, if any. -/
  ping : Option GoError
  /-- The text of the error `json.Unmarshal` reports for a payload it rejects. -/
  jsonErrorText : GoString → GoString

/-- A call either returns or panics. -/
inductive Run (α : Type) where
  | panic : Run α
  | ret : α → Run α

/-! ## `encoding/json`, as far as `json.Unmarshal` into `KubeadmVersion` goes -/

namespace json

/-- A JSON document. -/
inductive Value where
  | null : Value
  | bool : Bool → Value
  | number : GoString → Value
  | string : GoString → Value
  | array : List Value → Value
  | object : List (GoString × Value) → Value

/-- JSON white space. -/
def isSpace (c : Char) : Bool := c = ' ' || c = '\t' || c = '\r' || c = '\n'

/-- Skip JSON white space. -/
def skipSpace (s : GoString) : GoString := s.dropWhile isSpace

/-- Decimal digit. -/
def isDigit (c : Char) : Bool := decide ('0' ≤ c) && decide (c ≤ '9')

/-- Value of a hexadecimal digit. -/
def hexVal (c : Char) : Option Nat :=
  if '0' ≤ c ∧ c ≤ '9' then some (c.toNat - 48)
  else if 'a' ≤ c ∧ c ≤ 'f' then some (c.toNat - 87)
  else if 'A' ≤ c ∧ c ≤ 'F' then some (c.toNat - 55)
  else none

/-- Value of four hexadecimal digits. -/
def hex4 (a b c d : Char) : Option Nat :=
  match hexVal a, hexVal b, hexVal c, hexVal d with
  | some a, some b, some c, some d => some (((a * 16 + b) * 16 + c) * 16 + d)
  | _, _, _, _ => none

/-- The character of a one-letter escape. -/
def escapeChar (c : Char) : Option Char :=
  if c = '"' then some '"'
  else if c = '\\' then some '\\'
  else if c = '/' then some '/'
  else if c = 'b' then some (Char.ofNat 8)
  else if c = 'f' then some (Char.ofNat 12)
  else if c = 'n' then some '\n'
  else if c = 'r' then some '\r'
  else if c = 't' then some '\t'
  else none

/-- The low half of a surrogate pair written as a `\u` escape at the head of `s`. -/
def lowSurrogate (s : GoString) : Option Nat :=
  match s with
  | b :: u :: a1 :: a2 :: a3 :: a4 :: _ =>
    if b = '\\' ∧ u = 'u' then
      match hex4 a1 a2 a3 a4 with
      | some lo => if 0xDC00 ≤ lo ∧ lo ≤ 0xDFFF then some lo else none
      | none => none
    else none
  | _ => none

/-- The scanning loop for the body of a string literal; each round consumes at
least one character, so `fuel` above the length of `s` is never used up. -/
def parseStringLoop : Nat → GoString → Option (GoString × GoString)
  | 0, _ => none
  | _ + 1, [] => none
  | fuel + 1, c :: cs =>
    if c = '"' then some ([], cs)
    else if c = '\\' then
      match cs with
      | [] => none
      | e :: cs2 =>
        if e = 'u' then
          match cs2 with
          | a1 :: a2 :: a3 :: a4 :: cs3 =>
            match hex4 a1 a2 a3 a4 with
            | none => none
            | some hi =>
              if 0xD800 ≤ hi ∧ hi ≤ 0xDFFF then
                match (if hi ≤ 0xDBFF then lowSurrogate cs3 else none) with
                | some lo =>
                  match parseStringLoop fuel (cs3.drop 6) with
                  | some (t, rest) =>
                    some (Char.ofNat (0x10000 + (hi - 0xD800) * 0x400 + (lo - 0xDC00)) :: t, rest)
                  | none => none
                | none =>
                  match parseStringLoop fuel cs3 with
                  | some (t, rest) => some (Char.ofNat 0xFFFD :: t, rest)
                  | none => none
              else
                match parseStringLoop fuel cs3 with
                | some (t, rest) => some (Char.ofNat hi :: t, rest)
                | none => none
          | _ => none
        else
          match escapeChar e with
          | none => none
          | some x =>
            match parseStringLoop fuel cs2 with
            | some (t, rest) => some (x :: t, rest)
            | none => none
    else if c.toNat < 0x20 then none
    else
      match parseStringLoop fuel cs with
      | some (t, rest) => some (c :: t, rest)
      | none => none

/-- The body of a string literal, behind its opening quote: the decoded text and
what follows the closing quote.  A `\u` escape of a surrogate that is not the
first half of a valid pair decodes to U+FFFD. -/
def parseString (s : GoString) : Option (GoString × GoString) :=
  parseStringLoop (s.length + 1) s

/-- A non-empty run of digits at the head of `s`, and what follows it. -/
def parseDigits (s : GoString) : Option (GoString × GoString) :=
  let ds := s.takeWhile isDigit
  if ds = [] then none else some (ds, s.dropWhile isDigit)

/-- The integer part of a number literal: `0`, or a run of digits that does not
start with `0`. -/
def parseInt (s : GoString) : Option (GoString × GoString) :=
  match s with
  | c :: t => if c = '0' then some ([c], t) else parseDigits s
  | [] => none

/-- The optional fraction of a number literal. -/
def parseFrac (s : GoString) : Option (GoString × GoString) :=
  match s with
  | c :: t =>
    if c = '.' then
      match parseDigits t with
      | some (ds, r) => some (c :: ds, r)
      | none => none
    else some ([], s)
  | [] => some ([], s)

/-- The optional sign at the head of `s`, and what follows it. -/
def parseSign (signs s : GoString) : GoString × GoString :=
  match s with
  | c :: t => if c ∈ signs then ([c], t) else ([], s)
  | [] => ([], s)

/-- The optional exponent of a number literal. -/
def parseExp (s : GoString) : Option (GoString × GoString) :=
  match s with
  | c :: t =>
    if c = 'e' ∨ c = 'E' then
      match parseDigits (parseSign ['+', '-'] t).2 with
      | some (ds, r) => some (c :: (parseSign ['+', '-'] t).1 ++ ds, r)
      | none => none
    else some ([], s)
  | [] => some ([], s)

/-- A number literal at the head of `s`, and what follows it. -/
def parseNumber (s : GoString) : Option (GoString × GoString) :=
  match parseInt (parseSign ['-'] s).2 with
  | none => none
  | some (ip, s2) =>
    match parseFrac s2 with
    | none => none
    | some (fp, s3) =>
      match parseExp s3 with
      | none => none
      | some (ep, s4) => some ((parseSign ['-'] s).1 ++ ip ++ fp ++ ep, s4)

/-- Deepest nesting of arrays and objects the scanner accepts. -/
def maxNestingDepth : Nat := 10000

mutual

/-- A JSON value at the head of `s` (no leading white space), and what follows
it; `depth` is the number of arrays and objects it is nested in. -/
def parseValue : Nat → Nat → GoString → Option (Value × GoString)
  | 0, _, _ => none
  | fuel + 1, depth, s =>
    match s with
    | [] => none
    | c :: cs =>
      if c = '{' then
        if maxNestingDepth < depth + 1 then none
        else
          match skipSpace cs with
          | [] => none
          | d :: ds =>
            if d = '}' then some (.object [], ds)
            else
              match parseMembers fuel (depth + 1) (d :: ds) with
              | some (ms, rest) => some (.object ms, rest)
              | none => none
      else if c = '[' then
        if maxNestingDepth < depth + 1 then none
        else
          match skipSpace cs with
          | [] => none
          | d :: ds =>
            if d = ']' then some (.array [], ds)
            else
              match parseElements fuel (depth + 1) (d :: ds) with
              | some (xs, rest) => some (.array xs, rest)
              | none => none
      else if c = '"' then
        match parseString cs with
        | some (t, rest) => some (.string t, rest)
        | none => none
      else if (str "true").isPrefixOf s then some (.bool true, s.drop 4)
      else if (str "false").isPrefixOf s then some (.bool false, s.drop 5)
      else if (str "null").isPrefixOf s then some (.null, s.drop 4)
      else
        match parseNumber s with
        | some (lit, rest) => some (.number lit, rest)
        | none => none

/-- The elements of an array, from the first element to the closing bracket. -/
def parseElements : Nat → Nat → GoString → Option (List Value × GoString)
  | 0, _, _ => none
  | fuel + 1, depth, s =>
    match parseValue fuel depth s with
    | none => none
    | some (v, r1) =>
      match skipSpace r1 with
      | [] => none
      | c :: r2 =>
        if c = ',' then
          match parseElements fuel depth (skipSpace r2) with
          | some (xs, rest) => some (v :: xs, rest)
          | none => none
        else if c = ']' then some ([v], r2)
        else none

/-- The members of an object, from the first key to the closing brace. -/
def parseMembers : Nat → Nat → GoString → Option (List (GoString × Value) × GoString)
  | 0, _, _ => none
  | fuel + 1, depth, s =>
    match s with
    | [] => none
    | q :: cs =>
      if q = '"' then
        match parseString cs with
        | none => none
        | some (key, r1) =>
          match skipSpace r1 with
          | [] => none
          | c2 :: r2 =>
            if c2 = ':' then
              match parseValue fuel depth (skipSpace r2) with
              | none => none
              | some (v, r3) =>
                match skipSpace r3 with
                | [] => none
                | c3 :: r4 =>
                  if c3 = ',' then
                    match parseMembers fuel depth (skipSpace r4) with
                    | some (ms, rest) => some ((key, v) :: ms, rest)
                    | none => none
                  else if c3 = '}' then some ([(key, v)], r4)
                  else none
            else none
      else none

end

/-- The document `data` holds, if `data` is exactly one JSON value surrounded by
optional white space (the check `json.Unmarshal` makes before decoding). -/
def parse (data : GoString) : Option Value :=
  match parseValue (2 * data.length + 2) 0 (skipSpace data) with
  | some (v, rest) => if skipSpace rest = [] then some v else none
  | none => none

/-- Case folding of the characters that fold to an ASCII letter. -/
def foldRune (c : Char) : Char :=
  if 'A' ≤ c ∧ c ≤ 'Z' then Char.ofNat (c.toNat + 32)
  else if c = Char.ofNat 0x17F then 's'
  else if c = Char.ofNat 0x212A then 'k'
  else c

/-- Whether an object key selects the struct field tagged `name` (an ASCII
name): the key equals the name up to case folding. -/
def matchesField (key name : GoString) : Bool :=
  key.map foldRune == name.map foldRune

end json

/-- The inner struct of `KubeadmVersion`. -/
structure ClientVersion where
  GitVersion : GoString
  deriving DecidableEq

/-- Type `KubeadmVersion` of `image.go`. -/
structure KubeadmVersion where
  ClientVersion : ClientVersion
  deriving DecidableEq

namespace json

/-- Decoding a JSON value into a `string` field: a string is stored, `null`
leaves the field as it is, anything else is a type error (`none`). -/
def decodeString (v : Value) (old : GoString) : Option GoString :=
  match v with
  | .string s => some s
  | .null => some old
  | _ => none

/-- Decoding a JSON value into the `ClientVersion` struct: the members of an
object are taken in order, those whose key matches `gitVersion` are decoded into
the field and the others are skipped. -/
def decodeClientVersion (v : Value) (old : ClientVersion) : Option ClientVersion :=
  match v with
  | .object ms =>
    ms.foldlM (fun (cv : ClientVersion) (m : GoString × Value) =>
      if matchesField m.1 (str "gitVersion") then
        (decodeString m.2 cv.GitVersion).map (fun s => { cv with GitVersion := s })
      else some cv) old
  | .null => some old
  | _ => none

/-- Decoding a JSON value into the `KubeadmVersion` struct. -/
def decodeKubeadmVersion (v : Value) (old : KubeadmVersion) : Option KubeadmVersion :=
  match v with
  | .object ms =>
    ms.foldlM (fun (kv : KubeadmVersion) (m : GoString × Value) =>
      if matchesField m.1 (str "clientVersion") then
        (decodeClientVersion m.2 kv.ClientVersion).map (fun c => { kv with ClientVersion := c })
      else some kv) old
  | .null => some old
  | _ => none

/-- Go `json.Unmarshal(data, &kubeadmVersion)` on a zero-valued struct: `none`
when an error is returned (the payload is not valid JSON, or a value has the
wrong type for its field). -/
def UnmarshalKubeadmVersion (data : GoString) : Option KubeadmVersion :=
  match parse data with
  | none => none
  | some v => decodeKubeadmVersion v { ClientVersion := { GitVersion := [] } }

end json

/-! ## `getKubeadmVersion`, `Validate`, `Complete` -/

/-- Method `getKubeadmVersion` of `image.go`. -/
def getKubeadmVersion (w : World) : Except GoError GoString :=
  match w.lookPath Kubeadm with
  | some err => .error (str "failed to find " ++ Kubeadm ++ str " " ++ err)
  | none =>
    let cmd := [Kubeadm, str "version", str "-o", str "json"]
    let r := w.command cmd
    match r.err with
    | some err => .error (str "failed to exec kubeadm version " ++ r.out ++ str " " ++ err)
    | none =>
      match json.UnmarshalKubeadmVersion r.out with
      | none => .error (str "failed to unmarshal kubeadm version " ++ w.jsonErrorText r.out)
      | some kubeadmVersion => .ok kubeadmVersion.ClientVersion.GitVersion

/-- The block of `Validate` guarded by `PushKubernetes`: the error it returns, or
`none` when control falls through to the connectivity check. -/
def validateKubernetes (w : World) (img : Image) : Option GoError :=
  if img.Cfg.Default.PushKubernetes then
    if img.KubernetesVersion.length = 0 then
      some (str "failed to find kubernetes version")
    else
      match getKubeadmVersion w with
      | .error err => some (str "failed to get kubeadm version: " ++ err)
      | .ok kubeadmVersion =>
        if kubeadmVersion ≠ img.KubernetesVersion then
          some (str "kubeadm version " ++ kubeadmVersion ++
            str " not match kubernetes version " ++ img.KubernetesVersion)
        else none
  else none

/-- Method `Validate` of `image.go`. -/
def Validate (w : World) (img : Image) : Option GoError :=
  match validateKubernetes w img with
  | some err => some err
  | none =>
    match w.ping with
    | some err => some err
    | none => none

/-- The version resolution of `Complete` (the block guarded by `PushKubernetes`
that assigns `img.KubernetesVersion`). -/
def completeVersion (w : World) (img : Image) : Image :=
  if img.Cfg.Default.PushKubernetes then
    if img.KubernetesVersion.length = 0 then
      if img.Cfg.Kubernetes.Version.length ≠ 0 then
        { img with KubernetesVersion := img.Cfg.Kubernetes.Version }
      else
        { img with KubernetesVersion := w.getenv (str "KubernetesVersion") }
    else img
  else img

/-- The defaults `Complete` gives to `User` and `Password`. -/
def completeCredentials (img : Image) : Image :=
  let img := if img.User.length = 0 then { img with User := User } else img
  if img.Password.length = 0 then { img with Password := Password } else img

/-- Go slice expression `s[1:]`: `none` when it panics (`s` is empty). -/
def sliceFrom1 (s : GoString) : Option GoString :=
  if 1 ≤ s.length then some (s.drop 1) else none

/-- The command `Complete` builds to install kubeadm; `none` when building it
panics. -/
def kubeadmInstallCmd (img : Image) : Option (List GoString) :=
  match sliceFrom1 img.Cfg.Kubernetes.Version with
  | none => none
  | some v =>
    some [str "sudo", str "apt-get", str "install", str "-y",
      str "kubeadm=" ++ v ++ str "-00"]

/-- Method `Complete` of `image.go`: the updated `Image` and the error returned. -/
def Complete (w : World) (img : Image) : Run (Image × Option GoError) :=
  match w.newClient with
  | some err => .ret (img, some err)
  | none =>
    let img := completeVersion w img
    let img := completeCredentials img
    if img.Cfg.Default.PushKubernetes then
      match kubeadmInstallCmd img with
      | none => .panic
      | some cmd =>
        let r := w.command cmd
        match r.err with
        | some err =>
          .ret (img, some (str "failed to install kubeadm " ++ r.out ++ str " " ++ err))
        | none => .ret (img, none)
    else .ret (img, none)

/-! ## `doPushImage` and `PushImages` -/

/-- The outcomes of the three registry operations of one image. -/
structure MirrorOutcome where
  /-- `docker.ImagePull`: the error, if any. -/
  pull : Option GoError
  /-- `docker.ImageTag`: the error, if any. -/
  tag : Option GoError
  /-- `docker push`. -/
  push : CmdResult

/-- Method `doPushImage` of `image.go`: the error returned. -/
def doPushImage (img : Image) (imageToPush : GoString) (o : MirrorOutcome) : Option GoError :=
  match parseTargetImage img imageToPush with
  | .error err => some err
  | .ok targetImage =>
    match o.pull with
    | some err => some err
    | none =>
      match o.tag with
      | some err => some err
      | none =>
        match o.push.err with
        | some err =>
          some (str "failed to push image " ++ targetImage ++ str " " ++ o.push.out ++
            str " " ++ err)
        | none => none

/-- The buffered channel `errCh`: the values waiting in it, oldest first, and
its capacity. -/
structure ErrChan where
  buf : List GoError
  cap : Nat

/-- Channel send `errCh <- err`: `none` when the buffer is full, in which case
the sender blocks (nothing receives before all workers are done). -/
def ErrChan.send (ch : ErrChan) (err : GoError) : Option ErrChan :=
  if ch.buf.length < ch.cap then some { ch with buf := ch.buf ++ [err] } else none

/-- The goroutine started for the `k`-th image. -/
def pushWorker (img : Image) (images : List GoString) (outcome : Nat → MirrorOutcome)
    (ch : ErrChan) (k : Nat) : Option ErrChan :=
  match doPushImage img (images.getD k []) (outcome k) with
  | some err => ch.send err
  | none => some ch

/-- The workers run to completion in the order `sched`; `none` when one of them
blocks for ever. -/
def runWorkers (img : Image) (images : List GoString) (outcome : Nat → MirrorOutcome) :
    List Nat → ErrChan → Option ErrChan
  | [], ch => some ch
  | k :: sched, ch =>
    match pushWorker img images outcome ch k with
    | none => none
    | some ch2 => runWorkers img images outcome sched ch2

/-- The `select` with a `default` case behind `wg.Wait()`. -/
def selectErr (ch : ErrChan) : Option GoError :=
  match ch.buf with
  | err :: _ => some err
  | [] => none

/-- Method `PushImages` of `image.go` from the point where the list `images` has
been assembled: the login, one worker per image, the barrier and the `select`.
`login` is the outcome of `docker login`, `outcome k` the outcomes of the registry
operations of the `k`-th worker, and `sched` the order in which the workers reach
the end of their body.  The result is `none` when `wg.Wait()` never returns. -/
def PushImages (img : Image) (images : List GoString) (login : CmdResult)
    (outcome : Nat → MirrorOutcome) (sched : List Nat) : Option (Option GoError) :=
  let diff := images.length
  let errCh : ErrChan := { buf := [], cap := diff }
  match login.err with
  | some err => some (some (str "failed to login in image " ++ login.out ++ str " " ++ err))
  | none =>
    match runWorkers img images outcome sched errCh with
    | none => none
    | some ch => some (selectErr ch)

/-! ## Concrete inputs used below -/

/-- An `Image` with the given flag, versions and configured image entries. -/
def mkImage (pushKubernetes : Bool) (explicit configured : GoString) (images : List GoString) :
    Image where
  KubernetesVersion := explicit
  ImageRepository := str "pixiuio"
  User := []
  Password := []
  Cfg := {
    Default := { PushKubernetes := pushKubernetes, PushImages := true }
    Kubernetes := { Version := configured }
    Images := images }

/-- A world in which the docker client is created and answers the ping, every
command succeeds, `kubeadm version -o json` prints `payload`, and the
environment variable `KubernetesVersion` holds `envVersion`. -/
def quietWorld (envVersion payload : GoString) : World where
  newClient := none
  getenv := fun name => if name = str "KubernetesVersion" then envVersion else []
  lookPath := fun _ => none
  command := fun argv =>
    if argv = [Kubeadm, str "version", str "-o", str "json"] then { out := payload, err := none }
    else { out := [], err := none }
  ping := none
  jsonErrorText := fun _ => str "unexpected end of JSON input"

/-- The output of `kubeadm version -o json` for release v1.22.8, shortened to
three of its fields. -/
def kubeadmVersionPayload : GoString :=
  str "\x7b\n  \"clientVersion\": \x7b\n    \"major\": \"1\",\n    \"minor\": \"22\",\n    \"gitVersion\": \"v1.22.8\"\n  \x7d\n\x7d\n"

/-- Registry operations that all succeed. -/
def mirrorOk : MirrorOutcome where
  pull := none
  tag := none
  push := { out := [], err := none }

/-- Registry operations whose pull fails with the error `err`. -/
def mirrorPullFails (err : GoError) : MirrorOutcome where
  pull := some err
  tag := none
  push := { out := [], err := none }

/-! ## Facts about the string functions -/

namespace strings

theorem contains_iff_occurs (s substr : GoString) :
    Contains s substr = true ↔ substr <:+: s := by
  induction s with
  | nil =>
    simp [Contains, List.isPrefixOf_iff_prefix]
  | cons c cs ih =>
    simp only [Contains, Bool.or_eq_true, ih, List.isPrefixOf_iff_prefix]
    exact (List.infix_cons_iff).symm

theorem hasPrefix_iff (s pre : GoString) : HasPrefix s pre = true ↔ pre <+: s := by
  simp [HasPrefix, List.isPrefixOf_iff_prefix]

theorem splitSeg_nil (sep : GoString) (k : Nat) : splitSeg sep k [] = [[]] := by
  cases k <;> rfl

theorem splitSeg_single_cons (c d : Char) (ds : GoString) :
    splitSeg [c] 0 (d :: ds) =
      if d = c then [] :: splitSeg [c] 0 ds
      else
        match splitSeg [c] 0 ds with
        | [] => [[d]]
        | seg :: segs => (d :: seg) :: segs := by
  by_cases h : d = c
  · subst h
    simp [splitSeg]
  · have h2 : ¬ c = d := fun e => h e.symm
    simp [splitSeg, h, h2]

theorem splitSeg_single_ne_nil (c : Char) (s : GoString) : splitSeg [c] 0 s ≠ [] := by
  cases s with
  | nil => simp [splitSeg]
  | cons d ds =>
    rw [splitSeg_single_cons]
    split
    · simp
    · split <;> simp

theorem join_cons_head (d : Char) (seg sep : GoString) (segs : List GoString) :
    Join ((d :: seg) :: segs) sep = d :: Join (seg :: segs) sep := by
  cases segs <;> simp [Join]

/-- Joining the segments of a split with the separator gives the string back. -/
theorem join_splitSeg_single (c : Char) (s : GoString) :
    Join (splitSeg [c] 0 s) [c] = s := by
  induction s with
  | nil => simp [splitSeg, Join]
  | cons d ds ih =>
    rw [splitSeg_single_cons]
    by_cases h : d = c
    · simp only [h, if_true]
      cases hs : splitSeg [c] 0 ds with
      | nil => exact absurd hs (splitSeg_single_ne_nil c ds)
      | cons x xs =>
        rw [hs] at ih
        simp [Join, ih]
    · simp only [h, if_false]
      cases hs : splitSeg [c] 0 ds with
      | nil => exact absurd hs (splitSeg_single_ne_nil c ds)
      | cons x xs =>
        rw [hs] at ih
        simp only []
        rw [join_cons_head, ih]

/-- No segment of a split contains the separator character. -/
theorem not_mem_of_mem_splitSeg_single (c : Char) (s : GoString) :
    ∀ seg ∈ splitSeg [c] 0 s, c ∉ seg := by
  induction s with
  | nil => simp [splitSeg]
  | cons d ds ih =>
    rw [splitSeg_single_cons]
    by_cases h : d = c
    · simp only [h, if_true]
      intro seg hseg
      rcases List.mem_cons.1 hseg with rfl | hseg
      · simp
      · exact ih seg hseg
    · simp only [h, if_false]
      cases hs : splitSeg [c] 0 ds with
      | nil => exact absurd hs (splitSeg_single_ne_nil c ds)
      | cons x xs =>
        rw [hs] at ih
        intro seg hseg
        simp only [] at hseg
        rcases List.mem_cons.1 hseg with rfl | hseg
        · have hx := ih x (List.mem_cons_self _ _)
          intro hmem
          rcases List.mem_cons.1 hmem with e | hmem
          · exact h e.symm
          · exact hx hmem
        · exact ih seg (List.mem_cons_of_mem _ hseg)

/-- Every segment of a split is a contiguous part of the string. -/
theorem infix_of_mem_splitSeg_single (c : Char) (s : GoString) :
    ∀ seg ∈ splitSeg [c] 0 s, seg <:+: s := by
  induction s with
  | nil =>
    intro seg hseg
    simp [splitSeg] at hseg
    subst hseg
    exact List.infix_refl _
  | cons d ds ih =>
    rw [splitSeg_single_cons]
    by_cases h : d = c
    · simp only [h, if_true]
      intro seg hseg
      rcases List.mem_cons.1 hseg with rfl | hseg
      · exact List.nil_infix
      · exact (List.infix_cons_iff).2 (Or.inr (ih seg hseg))
    · simp only [h, if_false]
      cases hs : splitSeg [c] 0 ds with
      | nil => exact absurd hs (splitSeg_single_ne_nil c ds)
      | cons x xs =>
        rw [hs] at ih
        have hx : x <+: ds := by
          have hj := join_splitSeg_single c ds
          rw [hs] at hj
          cases xs with
          | nil => simp [Join] at hj; rw [hj]
          | cons y ys =>
            simp only [Join] at hj
            rw [← hj, List.append_assoc]
            exact List.prefix_append _ _
        intro seg hseg
        simp only [] at hseg
        rcases List.mem_cons.1 hseg with rfl | hseg
        · have : (d :: x) <+: (d :: ds) := by
            obtain ⟨t, ht⟩ := hx
            exact ⟨t, by simp [← ht]⟩
          exact this.isInfix
        · exact (List.infix_cons_iff).2 (Or.inr (ih seg (List.mem_cons_of_mem _ hseg)))

theorem splitSeg_single_of_not_mem (c : Char) (l : GoString) (h : c ∉ l) :
    splitSeg [c] 0 l = [l] := by
  induction l with
  | nil => simp [splitSeg]
  | cons d ds ih =>
    have hd : d ≠ c := fun e => h (by simp [e])
    have hds : c ∉ ds := fun e => h (List.mem_cons_of_mem _ e)
    rw [splitSeg_single_cons, if_neg hd, ih hds]

theorem splitSeg_single_append (c : Char) (l rest : GoString) (h : c ∉ l) :
    splitSeg [c] 0 (l ++ c :: rest) = l :: splitSeg [c] 0 rest := by
  induction l with
  | nil => simp [splitSeg_single_cons]
  | cons d ds ih =>
    have hd : d ≠ c := fun e => h (by simp [e])
    have hds : c ∉ ds := fun e => h (List.mem_cons_of_mem _ e)
    rw [List.cons_append, splitSeg_single_cons, if_neg hd, ih hds]

/-- Splitting a joined, non-empty list of separator-free segments gives the
segments back. -/
theorem splitSeg_single_join (c : Char) (ls : List GoString) (hne : ls ≠ [])
    (h : ∀ l ∈ ls, c ∉ l) : splitSeg [c] 0 (Join ls [c]) = ls := by
  induction ls with
  | nil => exact absurd rfl hne
  | cons a rest ih =>
    cases rest with
    | nil =>
      simp only [Join]
      exact splitSeg_single_of_not_mem c a (h a (List.mem_cons_self _ _))
    | cons b rest2 =>
      simp only [Join]
      rw [List.append_assoc, List.singleton_append,
        splitSeg_single_append c a _ (h a (List.mem_cons_self _ _))]
      rw [ih (by simp) (fun l hl => h l (List.mem_cons_of_mem _ hl))]

theorem split_single (s : GoString) (c : Char) : Split s [c] = splitSeg [c] 0 s := by
  simp [Split]

end strings

theorem cleanImagesCount_eq (parts : List GoString) (index : Nat) :
    cleanImagesCount parts index =
      index + parts.countP (fun p => strings.HasPrefix p IgnoreKey) := by
  induction parts generalizing index with
  | nil => simp [cleanImagesCount]
  | cons p parts ih =>
    by_cases h : strings.HasPrefix p IgnoreKey = true
    · simp [cleanImagesCount, h, ih, List.countP_cons]
      omega
    · simp [cleanImagesCount, h, ih, List.countP_cons]

/-! ## `cleanImages` -/

theorem cleanImages_formula (x : GoString) :
    cleanImages x =
      strings.Join
        ((strings.Split x (str "\n")).drop
          ((strings.Split x (str "\n")).countP (fun p => strings.HasPrefix p IgnoreKey)))
        (str "\n") := by
  have hnl : str "\n" = ['\n'] := rfl
  rw [hnl, strings.split_single]
  by_cases hc : strings.Contains x IgnoreKey = true
  · simp [cleanImages, hc, hnl, strings.split_single, cleanImagesCount_eq]
  · have hzero : (strings.splitSeg ['\n'] 0 x).countP
        (fun p => strings.HasPrefix p IgnoreKey) = 0 := by
      rw [List.countP_eq_zero]
      intro p hp hpre
      apply hc
      rw [strings.contains_iff_occurs]
      exact ((strings.hasPrefix_iff p IgnoreKey).1 hpre).isInfix.trans
        (strings.infix_of_mem_splitSeg_single '\n' x p hp)
    rw [hzero, List.drop_zero, strings.join_splitSeg_single]
    simp [cleanImages, hc]

/-- C1: for every input `x`, `cleanImages x` is the list of lines of `x` (`x`
split on "\n") without its first `k` elements, joined again with "\n", where `k`
counts the lines of `x`, wherever they stand, that start with "W0508"; the lines
removed are the first `k` whatever they contain (`k` never exceeds the number of
lines), and an input in which "W0508" does not occur is returned unchanged. -/
theorem cleanImages_removes_first_k_lines (x : GoString) :
    cleanImages x =
        strings.Join
          ((strings.Split x (str "\n")).drop
            ((strings.Split x (str "\n")).countP (fun p => strings.HasPrefix p IgnoreKey)))
          (str "\n")
      ∧ (strings.Split x (str "\n")).countP (fun p => strings.HasPrefix p IgnoreKey)
          ≤ (strings.Split x (str "\n")).length
      ∧ (strings.Contains x IgnoreKey = false → cleanImages x = x) := by
  refine ⟨cleanImages_formula x, List.countP_le_length _, ?_⟩
  intro h
  simp [cleanImages, h]

/-- C10: when the lines of `x` that start with "W0508" are exactly its first `k`
lines, `cleanImages x` is the lines of `x` that do not start with "W0508", in
order and joined with "\n", and cleaning the result again leaves it as it is. -/
theorem cleanImages_leading_run (x : GoString) (k : Nat)
    (hlead : ∀ l ∈ (strings.Split x (str "\n")).take k, strings.HasPrefix l IgnoreKey = true)
    (hrest : ∀ l ∈ (strings.Split x (str "\n")).drop k, strings.HasPrefix l IgnoreKey = false) :
    cleanImages x =
        strings.Join
          ((strings.Split x (str "\n")).filter (fun l => !strings.HasPrefix l IgnoreKey))
          (str "\n")
      ∧ cleanImages (cleanImages x) = cleanImages x := by
  have hnl : str "\n" = ['\n'] := rfl
  rw [hnl, strings.split_single] at hlead hrest
  have hform := cleanImages_formula x
  rw [hnl, strings.split_single] at hform
  rw [hnl, strings.split_single]
  set parts := strings.splitSeg ['\n'] 0 x with hparts
  set p : GoString → Bool := fun l => strings.HasPrefix l IgnoreKey with hp
  have hsplit : parts = parts.take k ++ parts.drop k := (List.take_append_drop k parts).symm
  have hcount : parts.countP p = (parts.take k).length := by
    conv_lhs => rw [hsplit]
    rw [List.countP_append]
    have h1 : (parts.take k).countP p = (parts.take k).length :=
      List.countP_eq_length.2 (fun l hl => hlead l hl)
    have h2 : (parts.drop k).countP p = 0 :=
      List.countP_eq_zero.2 (fun l hl => by simp [hp, hrest l hl])
    rw [h1, h2, Nat.add_zero]
  have hdrop : parts.drop (parts.countP p) = parts.drop k := by
    rw [hcount, List.length_take]
    rcases Nat.le_total k parts.length with h | h
    · rw [Nat.min_eq_left h]
    · rw [Nat.min_eq_right h, List.drop_length, List.drop_eq_nil_of_le h]
  have hfilter : parts.filter (fun l => !p l) = parts.drop k := by
    conv_lhs => rw [hsplit]
    rw [List.filter_append]
    have h1 : (parts.take k).filter (fun l => !p l) = [] :=
      List.filter_eq_nil_iff.2 (fun l hl => by simp [hp, hlead l hl])
    have h2 : (parts.drop k).filter (fun l => !p l) = parts.drop k :=
      List.filter_eq_self.2 (fun l hl => by simp [hp, hrest l hl])
    rw [h1, h2, List.nil_append]
  have hx : cleanImages x = strings.Join (parts.drop k) ['\n'] := by
    rw [hform, hdrop]
  refine ⟨by rw [hx]; exact congrArg (fun l => strings.Join l ['\n']) hfilter.symm, ?_⟩
  by_cases hnil : parts.drop k = []
  · rw [hx, hnil]
    decide
  · have hsj : strings.splitSeg ['\n'] 0 (strings.Join (parts.drop k) ['\n'])
        = parts.drop k :=
      strings.splitSeg_single_join '\n' (parts.drop k) hnil
        (fun l hl => strings.not_mem_of_mem_splitSeg_single '\n' x l (List.mem_of_mem_drop hl))
    have h2 := cleanImages_formula (cleanImages x)
    rw [hnl, strings.split_single, hx, hsj] at h2
    have hz : (parts.drop k).countP p = 0 :=
      List.countP_eq_zero.2 (fun l hl => by simp [hp, hrest l hl])
    rw [hx, h2]
    rw [show (List.countP (fun p => strings.HasPrefix p IgnoreKey) (List.drop k parts)) = 0 from hz]
    rfl

theorem cleanImages_leading_run_witness :
    cleanImages (str "W0508 a\nW0508 b\n\x7b\n\x7d") =
        strings.Join
          ((strings.Split (str "W0508 a\nW0508 b\n\x7b\n\x7d") (str "\n")).filter
            (fun l => !strings.HasPrefix l IgnoreKey))
          (str "\n")
      ∧ cleanImages (cleanImages (str "W0508 a\nW0508 b\n\x7b\n\x7d")) =
          cleanImages (str "W0508 a\nW0508 b\n\x7b\n\x7d") :=
  cleanImages_leading_run (str "W0508 a\nW0508 b\n\x7b\n\x7d") 2 (by decide) (by decide)

/-! ## `parseTargetImage` -/

namespace strings

theorem length_splitSeg_single (c : Char) (s : GoString) :
    (splitSeg [c] 0 s).length = s.count c + 1 := by
  induction s with
  | nil => simp [splitSeg]
  | cons d ds ih =>
    rw [splitSeg_single_cons]
    by_cases h : d = c
    · subst h
      simp [ih]
    · simp only [h, if_false]
      cases hs : splitSeg [c] 0 ds with
      | nil => exact absurd hs (splitSeg_single_ne_nil c ds)
      | cons x xs =>
        rw [hs] at ih
        have hcd : ¬ (d == c) = true := by simpa using h
        simp only [List.length_cons] at ih ⊢
        rw [List.count_cons, if_neg hcd]
        omega

theorem length_splitSeg_single_lt_two (c : Char) (s : GoString) :
    (splitSeg [c] 0 s).length < 2 ↔ c ∉ s := by
  rw [length_splitSeg_single, ← List.count_eq_zero]
  omega

theorem getD_length_sub_one (l : List GoString) :
    l.getD (l.length - 1) [] = l.getLast?.getD [] := by
  induction l with
  | nil => rfl
  | cons a rest ih =>
    cases rest with
    | nil => rfl
    | cons b rest2 =>
      rw [List.getLast?_cons_cons, ← ih]
      simp

/-- The last segment of a split is what follows the last separator. -/
theorem getLast_splitSeg_single (c : Char) (p t : GoString) (ht : c ∉ t) :
    (splitSeg [c] 0 (p ++ c :: t)).getLast? = some t := by
  induction p with
  | nil =>
    simp [splitSeg_single_cons, splitSeg_single_of_not_mem c t ht]
  | cons d ds ih =>
    rw [List.cons_append, splitSeg_single_cons]
    have hlen : 2 ≤ (splitSeg [c] 0 (ds ++ c :: t)).length := by
      rw [length_splitSeg_single]
      have : 0 < (ds ++ c :: t).count c := List.count_pos_iff.2 (by simp)
      omega
    cases hs : splitSeg [c] 0 (ds ++ c :: t) with
    | nil => rw [hs] at hlen; simp at hlen
    | cons x xs =>
      rw [hs] at ih hlen
      cases xs with
      | nil => simp at hlen
      | cons y ys =>
        rw [List.getLast?_cons_cons] at ih
        by_cases h : d = c
        · simp only [h, if_true]
          rw [List.getLast?_cons_cons, List.getLast?_cons_cons, ih]
        · simp only [h, if_false]
          rw [List.getLast?_cons_cons, ih]

end strings

/-- C2: `parseTargetImage` fails, with the invalid-image-format error, exactly
when the reference split on "/" has fewer than two segments, which is when it
contains no "/"; otherwise it returns the target registry, "/", and the last
segment of the reference, which is the text behind its last "/".  So "a/b/c:tag"
with registry "reg" gives "reg/c:tag", and "busybox" gives the error. -/
theorem parseTargetImage_spec (img : Image) (s : GoString) :
    ((∃ err, parseTargetImage img s = .error err) ↔ (strings.Split s (str "/")).length < 2)
    ∧ ((strings.Split s (str "/")).length < 2 ↔ '/' ∉ s)
    ∧ ('/' ∉ s → parseTargetImage img s = .error (str "invaild image format: " ++ s))
    ∧ ('/' ∈ s → parseTargetImage img s =
        .ok (img.ImageRepository ++ str "/" ++ (strings.Split s (str "/")).getLast?.getD []))
    ∧ (∀ p t : GoString, s = p ++ '/' :: t → '/' ∉ t →
        parseTargetImage img s = .ok (img.ImageRepository ++ str "/" ++ t))
    ∧ parseTargetImage { img with ImageRepository := str "reg" } (str "a/b/c:tag")
        = .ok (str "reg/c:tag")
    ∧ parseTargetImage img (str "busybox")
        = .error (str "invaild image format: busybox") := by
  have hsl : str "/" = ['/'] := rfl
  have hlt := strings.length_splitSeg_single_lt_two '/' s
  have hno : '/' ∉ s → parseTargetImage img s = .error (str "invaild image format: " ++ s) := by
    intro h
    simp only [parseTargetImage, hsl, strings.split_single]
    rw [if_pos (hlt.2 h)]
  have hyes : '/' ∈ s → parseTargetImage img s =
      .ok (img.ImageRepository ++ str "/" ++ (strings.Split s (str "/")).getLast?.getD []) := by
    intro h
    have hge : ¬ (strings.splitSeg ['/'] 0 s).length < 2 := fun hl => hlt.1 hl h
    simp only [parseTargetImage, hsl, strings.split_single]
    rw [if_neg hge, strings.getD_length_sub_one]
  refine ⟨?_, ?_, hno, hyes, ?_, ?_, ?_⟩
  · rw [hsl, strings.split_single, hlt]
    constructor
    · rintro ⟨err, herr⟩ hmem
      rw [hyes hmem] at herr
      cases herr
    · intro h
      exact ⟨_, hno h⟩
  · rw [hsl, strings.split_single]
    exact hlt
  · intro p t hs ht
    have hmem : '/' ∈ s := by rw [hs]; simp
    rw [hyes hmem, hsl, strings.split_single, hs, strings.getLast_splitSeg_single '/' p t ht]
    rfl
  · rfl
  · rfl

/-! ## `getImagesFromFile` -/

namespace strings

theorem contains_singleton_iff (s : GoString) (c : Char) :
    Contains s [c] = true ↔ c ∈ s := by
  rw [contains_iff_occurs]
  constructor
  · rintro ⟨p, q, h⟩
    rw [← h]
    simp
  · intro h
    obtain ⟨p, q, h⟩ := List.append_of_mem h
    exact ⟨p, q, by simp [h]⟩

theorem trimSpace_eq_nil_iff (e : GoString) :
    TrimSpace e = [] ↔ ∀ c ∈ e, IsSpace c = true := by
  unfold TrimSpace
  rw [List.reverse_eq_nil_iff, List.dropWhile_eq_nil_iff]
  simp only [List.mem_reverse]
  rw [← List.dropWhile_eq_nil_iff, List.dropWhile_idempotent, List.dropWhile_eq_nil_iff]

end strings

/-- The loop of `getImagesFromFile` on entries none of which has a space left
after trimming. -/
theorem getImagesFromFileLoop_ok (entries imgs : List GoString)
    (h : ∀ e ∈ entries, ' ' ∉ strings.TrimSpace e) :
    getImagesFromFileLoop entries imgs =
      .ok (imgs ++ (entries.map strings.TrimSpace).filter (fun e => decide (e ≠ []))) := by
  induction entries generalizing imgs with
  | nil => simp [getImagesFromFileLoop]
  | cons i rest ih =>
    have hrest : ∀ e ∈ rest, ' ' ∉ strings.TrimSpace e :=
      fun e he => h e (List.mem_cons_of_mem _ he)
    have hi : strings.Contains (strings.TrimSpace i) (str " ") = false := by
      have := h i (List.mem_cons_self _ _)
      rw [← strings.contains_singleton_iff] at this
      simpa using this
    by_cases hempty : strings.TrimSpace i = []
    · simp [getImagesFromFileLoop, hempty, ih imgs hrest]
    · have hlen : ¬ (strings.TrimSpace i).length = 0 := by
        simpa [List.length_eq_zero] using hempty
      simp [getImagesFromFileLoop, hlen, hi, hempty, ih _ hrest]

/-- The loop of `getImagesFromFile` on entries one of which has a space left
after trimming. -/
theorem getImagesFromFileLoop_error (entries imgs : List GoString)
    (h : ∃ e ∈ entries, ' ' ∈ strings.TrimSpace e) :
    ∃ e ∈ entries, ' ' ∈ strings.TrimSpace e ∧
      getImagesFromFileLoop entries imgs =
        .error (str "error image format: " ++ strings.TrimSpace e) := by
  induction entries generalizing imgs with
  | nil =>
    obtain ⟨e, he, _⟩ := h
    cases he
  | cons i rest ih =>
    by_cases hi : ' ' ∈ strings.TrimSpace i
    · refine ⟨i, List.mem_cons_self _ _, hi, ?_⟩
      have hc : strings.Contains (strings.TrimSpace i) (str " ") = true :=
        (strings.contains_singleton_iff _ ' ').2 hi
      have hlen : ¬ (strings.TrimSpace i).length = 0 := by
        intro h0
        rw [List.length_eq_zero] at h0
        rw [h0] at hi
        cases hi
      simp [getImagesFromFileLoop, hlen, hc]
    · have hrest : ∃ e ∈ rest, ' ' ∈ strings.TrimSpace e := by
        obtain ⟨e, he, hsp⟩ := h
        rcases List.mem_cons.1 he with rfl | he
        · exact absurd hsp hi
        · exact ⟨e, he, hsp⟩
      have hc : strings.Contains (strings.TrimSpace i) (str " ") = false := by
        rw [← strings.contains_singleton_iff] at hi
        simpa using hi
      by_cases hempty : strings.TrimSpace i = []
      · obtain ⟨e, he, hsp, hrun⟩ := ih imgs hrest
        exact ⟨e, List.mem_cons_of_mem _ he, hsp, by
          simp [getImagesFromFileLoop, hempty, hrun]⟩
      · have hlen : ¬ (strings.TrimSpace i).length = 0 := by
          simpa [List.length_eq_zero] using hempty
        obtain ⟨e, he, hsp, hrun⟩ := ih (imgs ++ [strings.TrimSpace i]) hrest
        exact ⟨e, List.mem_cons_of_mem _ he, hsp, by
          simp [getImagesFromFileLoop, hlen, hc, hrun]⟩

/-- C3, as the claim states it, fails: the entry "a<TAB>b" keeps a white-space
character between two other characters after trimming, and `getImagesFromFile`
accepts it. -/
theorem getImagesFromFile_accepts_inner_tab :
    strings.IsSpace '\t' = true
    ∧ strings.TrimSpace (str "a\tb") = str "a\tb"
    ∧ getImagesFromFile (mkImage false [] [] [str "a\tb"]) = .ok [str "a\tb"] :=
  ⟨by decide, by decide, by rfl⟩

/-- C3 (amended): `getImagesFromFile` fails with the invalid-image-format error
whenever some entry, after trimming surrounding white space, still contains a
space character (U+0020); the error names such an entry. -/
theorem getImagesFromFile_rejects_inner_space (img : Image)
    (h : ∃ e ∈ img.Cfg.Images, ' ' ∈ strings.TrimSpace e) :
    ∃ e ∈ img.Cfg.Images, ' ' ∈ strings.TrimSpace e ∧
      getImagesFromFile img = .error (str "error image format: " ++ strings.TrimSpace e) :=
  getImagesFromFileLoop_error img.Cfg.Images [] h

theorem getImagesFromFile_rejects_inner_space_witness :
    ∃ e ∈ (mkImage false [] [] [str "docker.io/nginx:latest", str " a b "]).Cfg.Images,
      ' ' ∈ strings.TrimSpace e ∧
      getImagesFromFile (mkImage false [] [] [str "docker.io/nginx:latest", str " a b "]) =
        .error (str "error image format: " ++ strings.TrimSpace e) :=
  getImagesFromFile_rejects_inner_space
    (mkImage false [] [] [str "docker.io/nginx:latest", str " a b "])
    ⟨str " a b ", by decide, by decide⟩

/-- C4: when `getImagesFromFile` succeeds, the list it returns is the list of
the trimmed entries that are not empty, in the order of the input; the entries
left out are those made of white space only, and nothing is reordered, repeated
or merged. -/
theorem getImagesFromFile_returns_trimmed_entries (img : Image) (imgs : List GoString)
    (h : getImagesFromFile img = .ok imgs) :
    imgs = (img.Cfg.Images.map strings.TrimSpace).filter (fun e => decide (e ≠ []))
    ∧ (∀ e ∈ img.Cfg.Images,
        strings.TrimSpace e = [] ↔ ∀ c ∈ e, strings.IsSpace c = true) := by
  refine ⟨?_, fun e _ => strings.trimSpace_eq_nil_iff e⟩
  by_cases hbad : ∃ e ∈ img.Cfg.Images, ' ' ∈ strings.TrimSpace e
  · obtain ⟨e, _, _, herr⟩ := getImagesFromFileLoop_error img.Cfg.Images [] hbad
    unfold getImagesFromFile at h
    rw [herr] at h
    cases h
  · have hgood : ∀ e ∈ img.Cfg.Images, ' ' ∉ strings.TrimSpace e :=
      fun e he hsp => hbad ⟨e, he, hsp⟩
    have hok := getImagesFromFileLoop_ok img.Cfg.Images [] hgood
    unfold getImagesFromFile at h
    rw [hok] at h
    simpa using (Except.ok.inj h).symm

theorem getImagesFromFile_returns_trimmed_entries_witness :
    [str "a/x", str "b/y", str "a/x"] =
        ((mkImage false [] [] [str " a/x", str " \t ", str "b/y\n", str "", str "a/x"]).Cfg.Images.map
          strings.TrimSpace).filter (fun e => decide (e ≠ []))
    ∧ (∀ e ∈ (mkImage false [] [] [str " a/x", str " \t ", str "b/y\n", str "", str "a/x"]).Cfg.Images,
        strings.TrimSpace e = [] ↔ ∀ c ∈ e, strings.IsSpace c = true) :=
  getImagesFromFile_returns_trimmed_entries
    (mkImage false [] [] [str " a/x", str " \t ", str "b/y\n", str "", str "a/x"])
    [str "a/x", str "b/y", str "a/x"] (by rfl)

/-! ## `Complete` and `Validate` -/

theorem completeCredentials_version (img : Image) :
    (completeCredentials img).KubernetesVersion = img.KubernetesVersion
    ∧ (completeCredentials img).Cfg = img.Cfg := by
  unfold completeCredentials
  constructor <;> (simp only []; split <;> split <;> rfl)

/-- C5: with `PushKubernetes` enabled, the version resolution of `Complete` sets
`KubernetesVersion` to the explicit (command-line) value if that is not empty,
else to the configured value if that is not empty, else to the value of the
environment variable; the resolved version is empty exactly when all three are,
and `Validate` then reports that no version was found.  The resolved version is
the one `Complete` leaves in the `Image` whenever it returns past the creation
of the docker client. -/
theorem completeVersion_precedence (w : World) (img : Image)
    (h : img.Cfg.Default.PushKubernetes = true) :
    (completeVersion w img).KubernetesVersion =
        (if img.KubernetesVersion ≠ [] then img.KubernetesVersion
         else if img.Cfg.Kubernetes.Version ≠ [] then img.Cfg.Kubernetes.Version
         else w.getenv (str "KubernetesVersion"))
    ∧ ((completeVersion w img).KubernetesVersion = [] ↔
        img.KubernetesVersion = [] ∧ img.Cfg.Kubernetes.Version = [] ∧
          w.getenv (str "KubernetesVersion") = [])
    ∧ ((completeVersion w img).KubernetesVersion = [] →
        Validate w (completeVersion w img) = some (str "failed to find kubernetes version"))
    ∧ (∀ r, w.newClient = none → Complete w img = .ret r →
        r.1.KubernetesVersion = (completeVersion w img).KubernetesVersion) := by
  have hcfg : (completeVersion w img).Cfg = img.Cfg := by
    unfold completeVersion
    split_ifs <;> rfl
  have hform : (completeVersion w img).KubernetesVersion =
        (if img.KubernetesVersion ≠ [] then img.KubernetesVersion
         else if img.Cfg.Kubernetes.Version ≠ [] then img.Cfg.Kubernetes.Version
         else w.getenv (str "KubernetesVersion")) := by
    unfold completeVersion
    rw [if_pos h]
    by_cases he : img.KubernetesVersion = []
    · by_cases hc : img.Cfg.Kubernetes.Version = []
      · simp [he, hc]
      · have hl : img.Cfg.Kubernetes.Version.length ≠ 0 := by
          simpa [List.length_eq_zero] using hc
        simp [he, hc]
    · have hl : ¬ img.KubernetesVersion.length = 0 := by
        simpa [List.length_eq_zero] using he
      simp [he, hl]
  refine ⟨hform, ?_, ?_, ?_⟩
  · rw [hform]
    by_cases he : img.KubernetesVersion = []
    · by_cases hc : img.Cfg.Kubernetes.Version = []
      · simp [he, hc]
      · simp [he, hc]
    · simp [he]
  · intro hempty
    unfold Validate validateKubernetes
    rw [hcfg, if_pos h, hempty]
    rfl
  · intro r hnew hret
    unfold Complete at hret
    rw [hnew] at hret
    simp only [] at hret
    split at hret
    · split at hret
      · cases hret
      · split at hret <;>
        · cases hret
          exact (completeCredentials_version _).1
    · cases hret
      exact (completeCredentials_version _).1

theorem completeVersion_precedence_witness :
    (completeVersion (quietWorld (str "v1.21.0") []) (mkImage true [] [] [])).KubernetesVersion =
        (if (mkImage true [] [] []).KubernetesVersion ≠ [] then
            (mkImage true [] [] []).KubernetesVersion
         else if (mkImage true [] [] []).Cfg.Kubernetes.Version ≠ [] then
            (mkImage true [] [] []).Cfg.Kubernetes.Version
         else (quietWorld (str "v1.21.0") []).getenv (str "KubernetesVersion"))
    ∧ ((completeVersion (quietWorld (str "v1.21.0") []) (mkImage true [] [] [])).KubernetesVersion
          = [] ↔
        (mkImage true [] [] []).KubernetesVersion = [] ∧
          (mkImage true [] [] []).Cfg.Kubernetes.Version = [] ∧
          (quietWorld (str "v1.21.0") []).getenv (str "KubernetesVersion") = [])
    ∧ ((completeVersion (quietWorld (str "v1.21.0") []) (mkImage true [] [] [])).KubernetesVersion
          = [] →
        Validate (quietWorld (str "v1.21.0") [])
            (completeVersion (quietWorld (str "v1.21.0") []) (mkImage true [] [] []))
          = some (str "failed to find kubernetes version"))
    ∧ (∀ r, (quietWorld (str "v1.21.0") []).newClient = none →
        Complete (quietWorld (str "v1.21.0") []) (mkImage true [] [] []) = .ret r →
        r.1.KubernetesVersion =
          (completeVersion (quietWorld (str "v1.21.0") []) (mkImage true [] [] [])).KubernetesVersion) :=
  completeVersion_precedence (quietWorld (str "v1.21.0") []) (mkImage true [] [] []) (by rfl)

/-- C9, evaluated on the code: with the command-line version "v1.23.6" and the
configured version "v1.22.8", `Complete` resolves `KubernetesVersion` to
"v1.23.6" and builds the install command for "kubeadm=1.22.8-00"; with the
command-line version "v1.23.6" and no configured version, `Complete` panics
while it builds the command. -/
theorem complete_installs_configured_version :
    (completeVersion (quietWorld [] []) (mkImage true (str "v1.23.6") (str "v1.22.8") [])).KubernetesVersion
        = str "v1.23.6"
    ∧ kubeadmInstallCmd (completeCredentials
          (completeVersion (quietWorld [] []) (mkImage true (str "v1.23.6") (str "v1.22.8") [])))
        = some [str "sudo", str "apt-get", str "install", str "-y", str "kubeadm=1.22.8-00"]
    ∧ Complete (quietWorld [] []) (mkImage true (str "v1.23.6") [] []) = .panic :=
  ⟨by rfl, by rfl, by rfl⟩

/-- C6: `Validate` is the sequential gate.  Without `PushKubernetes` its result
is the result of the ping, whatever the versions are.  With `PushKubernetes` it
is the missing-version error when the target version is empty, else the wrapped
error of the installed-version check when that fails, else the version-mismatch
error when the installed version differs from the target (whatever the ping
returns), else the result of the ping.  It returns no error exactly when the
ping succeeds and either `PushKubernetes` is off or the target version is not
empty and equals the installed one. -/
theorem Validate_is_sequential_gate (w : World) (img : Image) :
    Validate w img =
        (if img.Cfg.Default.PushKubernetes = false then w.ping
         else if img.KubernetesVersion = [] then some (str "failed to find kubernetes version")
         else
           match getKubeadmVersion w with
           | .error err => some (str "failed to get kubeadm version: " ++ err)
           | .ok kubeadmVersion =>
             if kubeadmVersion ≠ img.KubernetesVersion then
               some (str "kubeadm version " ++ kubeadmVersion ++
                 str " not match kubernetes version " ++ img.KubernetesVersion)
             else w.ping)
    ∧ (img.Cfg.Default.PushKubernetes = false → Validate w img = w.ping)
    ∧ (∀ v, img.Cfg.Default.PushKubernetes = true → img.KubernetesVersion ≠ [] →
        getKubeadmVersion w = .ok v → v ≠ img.KubernetesVersion →
        Validate w img =
          some (str "kubeadm version " ++ v ++
            str " not match kubernetes version " ++ img.KubernetesVersion))
    ∧ (Validate w img = none ↔
        w.ping = none ∧
          (img.Cfg.Default.PushKubernetes = false ∨
            (img.KubernetesVersion ≠ [] ∧ getKubeadmVersion w = .ok img.KubernetesVersion))) := by
  have hping : (match w.ping with | some err => some err | none => none) = w.ping := by
    cases w.ping <;> rfl
  have hform : Validate w img =
        (if img.Cfg.Default.PushKubernetes = false then w.ping
         else if img.KubernetesVersion = [] then some (str "failed to find kubernetes version")
         else
           match getKubeadmVersion w with
           | .error err => some (str "failed to get kubeadm version: " ++ err)
           | .ok kubeadmVersion =>
             if kubeadmVersion ≠ img.KubernetesVersion then
               some (str "kubeadm version " ++ kubeadmVersion ++
                 str " not match kubernetes version " ++ img.KubernetesVersion)
             else w.ping) := by
    unfold Validate validateKubernetes
    by_cases hp : img.Cfg.Default.PushKubernetes = true
    · by_cases he : img.KubernetesVersion = []
      · simp [hp, he]
      · have hl : ¬ img.KubernetesVersion.length = 0 := by
          simpa [List.length_eq_zero] using he
        simp only [hp, hl, he, if_true, if_false, Bool.true_eq_false]
        cases hk : getKubeadmVersion w with
        | error err => simp
        | ok v =>
          by_cases hv : v = img.KubernetesVersion
          · simp [hv, hping]
          · simp [hv]
    · have hp2 : img.Cfg.Default.PushKubernetes = false := by simpa using hp
      simp [hp2, hping]
  refine ⟨hform, ?_, ?_, ?_⟩
  · intro hp
    rw [hform, if_pos hp]
  · intro v hp he hk hv
    have hp2 : ¬ img.Cfg.Default.PushKubernetes = false := by simp [hp]
    rw [hform, if_neg hp2, if_neg he, hk]
    simp only []
    rw [if_pos hv]
  rw [hform]
  by_cases hp : img.Cfg.Default.PushKubernetes = true
  · by_cases he : img.KubernetesVersion = []
    · simp [hp, he]
    · simp only [hp, he, if_false, Bool.true_eq_false, false_or, ne_eq, not_false_eq_true,
        true_and]
      cases hk : getKubeadmVersion w with
      | error err => simp
      | ok v =>
        by_cases hv : v = img.KubernetesVersion
        · simp [hv]
        · simp [hv]
  · have hp2 : img.Cfg.Default.PushKubernetes = false := by simpa using hp
    simp [hp2]

/-! ## `encoding/json`: the scanner never runs out of fuel -/

namespace json

theorem length_skipSpace_le (s : GoString) : (skipSpace s).length ≤ s.length :=
  (List.dropWhile_sublist _).length_le

theorem length_of_skipSpace_cons {s r : GoString} {c : Char} (h : skipSpace s = c :: r) :
    r.length < s.length := by
  have := length_skipSpace_le s
  rw [h] at this
  simp only [List.length_cons] at this
  omega

/-- The string scanner consumes at least the closing quote. -/
theorem parseStringLoop_length (fuel : Nat) :
    ∀ (s t rest : GoString), parseStringLoop fuel s = some (t, rest) → rest.length < s.length := by
  induction fuel with
  | zero => intro s t rest h; simp [parseStringLoop] at h
  | succ fuel ih =>
    intro s t rest h
    cases s with
    | nil => simp [parseStringLoop] at h
    | cons c cs =>
      simp only [parseStringLoop] at h
      repeat' split at h
      all_goals first
        | (cases h; done)
        | (cases h
           first
           | (simp only [List.length_cons]; omega)
           | (have hr := ih _ _ _ ‹parseStringLoop fuel _ = some _›
              simp only [List.length_cons, List.length_drop] at hr ⊢
              omega))


/-- Fuel above the length of the input is never used up by the string scanner. -/
theorem parseStringLoop_fuel (fuel : Nat) :
    ∀ s : GoString, s.length < fuel → parseStringLoop fuel s = parseStringLoop (fuel + 1) s := by
  induction fuel with
  | zero => intro s h; omega
  | succ fuel ih =>
    intro s hlen
    cases s with
    | nil => simp [parseStringLoop]
    | cons c cs =>
      simp only [parseStringLoop]
      repeat' first
        | rfl
        | rw [ih _ (by simp only [List.length_cons, List.length_drop] at hlen ⊢; omega)]
        | split

theorem parseString_fuel (s : GoString) (fuel : Nat) (h : s.length < fuel) :
    parseString s = parseStringLoop fuel s := by
  unfold parseString
  induction fuel with
  | zero => omega
  | succ fuel ih =>
    by_cases hlt : s.length < fuel
    · rw [ih hlt, parseStringLoop_fuel fuel s hlt]
    · have : fuel = s.length := by omega
      rw [this]


theorem parseDigits_length (s ds rest : GoString) (h : parseDigits s = some (ds, rest)) :
    rest.length < s.length := by
  unfold parseDigits at h
  simp only [] at h
  split_ifs at h with hnil
  cases h
  have hlen := congrArg List.length (List.takeWhile_append_dropWhile isDigit s)
  simp only [List.length_append] at hlen
  have hpos : 0 < (List.takeWhile isDigit s).length := List.length_pos.2 hnil
  omega

theorem parseSign_length (signs s : GoString) : (parseSign signs s).2.length ≤ s.length := by
  unfold parseSign
  split
  · split <;> simp
  · simp

theorem parseInt_length (s ip rest : GoString) (h : parseInt s = some (ip, rest)) :
    rest.length < s.length := by
  unfold parseInt at h
  split at h
  · split_ifs at h
    · cases h; simp
    · exact parseDigits_length _ _ _ h
  · cases h

theorem parseFrac_length (s fp rest : GoString) (h : parseFrac s = some (fp, rest)) :
    rest.length ≤ s.length := by
  unfold parseFrac at h
  split at h
  · split_ifs at h
    · split at h
      · cases h
        have := parseDigits_length _ _ _ ‹parseDigits _ = some _›
        simp only [List.length_cons]
        omega
      · cases h
    · cases h; exact Nat.le_refl _
  · cases h; exact Nat.le_refl _

theorem parseExp_length (s ep rest : GoString) (h : parseExp s = some (ep, rest)) :
    rest.length ≤ s.length := by
  cases s with
  | nil => simp only [parseExp] at h; cases h; exact Nat.le_refl _
  | cons c t =>
    simp only [parseExp] at h
    split_ifs at h
    · split at h
      · cases h
        have h1 := parseDigits_length _ _ _ ‹parseDigits _ = some _›
        have h2 := parseSign_length ['+', '-'] t
        simp only [List.length_cons]
        omega
      · cases h
    · cases h; exact Nat.le_refl _

theorem parseNumber_length (s lit rest : GoString) (h : parseNumber s = some (lit, rest)) :
    rest.length < s.length := by
  unfold parseNumber at h
  split at h
  · cases h
  · split at h
    · cases h
    · split at h
      · cases h
      · cases h
        have h1 := parseInt_length _ _ _ ‹parseInt _ = some _›
        have h2 := parseFrac_length _ _ _ ‹parseFrac _ = some _›
        have h3 := parseExp_length _ _ _ ‹parseExp _ = some _›
        have h4 := parseSign_length ['-'] s
        omega


theorem parseString_length (s t rest : GoString) (h : parseString s = some (t, rest)) :
    rest.length < s.length :=
  parseStringLoop_length _ s t rest h

/-- Every parser of the mutual block consumes at least one character. -/
theorem parse_length (fuel : Nat) :
    (∀ depth s v rest, parseValue fuel depth s = some (v, rest) → rest.length < s.length)
    ∧ (∀ depth s xs rest, parseElements fuel depth s = some (xs, rest) →
        rest.length < s.length)
    ∧ (∀ depth s ms rest, parseMembers fuel depth s = some (ms, rest) →
        rest.length < s.length) := by
  induction fuel with
  | zero =>
    refine ⟨?_, ?_, ?_⟩ <;> intro depth s v rest h
    · simp [parseValue] at h
    · simp [parseElements] at h
    · simp [parseMembers] at h
  | succ fuel ih =>
    obtain ⟨ihV, ihE, ihM⟩ := ih
    refine ⟨?_, ?_, ?_⟩
    · intro depth s v rest h
      cases s with
      | nil => simp [parseValue] at h
      | cons c cs =>
        simp only [parseValue] at h
        repeat' split at h
        all_goals first
          | (cases h; done)
          | (cases h
             first
             | (have h1 := length_of_skipSpace_cons ‹skipSpace _ = _ :: _›
                first
                | (have h2 := ihM _ _ _ _ ‹parseMembers _ _ _ = some _›
                   simp only [List.length_cons] at h2 ⊢
                   omega)
                | (have h2 := ihE _ _ _ _ ‹parseElements _ _ _ = some _›
                   simp only [List.length_cons] at h2 ⊢
                   omega)
                | (simp only [List.length_cons]; omega))
             | (have h1 := parseString_length _ _ _ ‹parseString _ = some _›
                simp only [List.length_cons]
                omega)
             | (have h1 := parseNumber_length _ _ _ ‹parseNumber _ = some _›
                exact h1)
             | (simp only [List.length_cons, List.length_drop]; omega))
    · intro depth s xs rest h
      simp only [parseElements] at h
      cases hv : parseValue fuel depth s with
      | none => simp [hv] at h
      | some p =>
        obtain ⟨v, r1⟩ := p
        have h1 := ihV _ _ _ _ hv
        simp only [hv] at h
        cases hs : skipSpace r1 with
        | nil => simp [hs] at h
        | cons c r2 =>
          have h2 := length_of_skipSpace_cons hs
          simp only [hs] at h
          split_ifs at h with hc1 hc2
          · cases he : parseElements fuel depth (skipSpace r2) with
            | none => simp [he] at h
            | some q =>
              obtain ⟨ys, r3⟩ := q
              have h3 := ihE _ _ _ _ he
              have h4 := length_skipSpace_le r2
              simp only [he, Option.some.injEq, Prod.mk.injEq] at h
              obtain ⟨_, rfl⟩ := h
              omega
          · simp only [Option.some.injEq, Prod.mk.injEq] at h
            obtain ⟨_, rfl⟩ := h
            omega
    · intro depth s ms rest h
      cases s with
      | nil => simp [parseMembers] at h
      | cons q cs =>
        simp only [parseMembers] at h
        split_ifs at h with hq
        cases hk : parseString cs with
        | none => simp [hk] at h
        | some p =>
          obtain ⟨key, r1⟩ := p
          have h1 := parseString_length _ _ _ hk
          simp only [hk] at h
          cases hs : skipSpace r1 with
          | nil => simp [hs] at h
          | cons c2 r2 =>
            have h2 := length_of_skipSpace_cons hs
            simp only [hs] at h
            split_ifs at h with hc
            cases hv : parseValue fuel depth (skipSpace r2) with
            | none => simp [hv] at h
            | some pv =>
              obtain ⟨v, r3⟩ := pv
              have h3 := ihV _ _ _ _ hv
              have h3' := length_skipSpace_le r2
              simp only [hv] at h
              cases hs2 : skipSpace r3 with
              | nil => simp [hs2] at h
              | cons c3 r4 =>
                have h4 := length_of_skipSpace_cons hs2
                simp only [hs2] at h
                split_ifs at h with hc1 hc2
                · cases hm : parseMembers fuel depth (skipSpace r4) with
                  | none => simp [hm] at h
                  | some pm =>
                    obtain ⟨ms2, r5⟩ := pm
                    have h5 := ihM _ _ _ _ hm
                    have h5' := length_skipSpace_le r4
                    simp only [hm, Option.some.injEq, Prod.mk.injEq] at h
                    obtain ⟨_, rfl⟩ := h
                    simp only [List.length_cons]
                    omega
                · simp only [Option.some.injEq, Prod.mk.injEq] at h
                  obtain ⟨_, rfl⟩ := h
                  simp only [List.length_cons]
                  omega


/-- Fuel above twice the length of the input is never used up: one more unit of
fuel changes nothing. -/
theorem parse_fuel_succ (fuel : Nat) :
    (∀ depth s, 2 * s.length < fuel →
        parseValue fuel depth s = parseValue (fuel + 1) depth s)
    ∧ (∀ depth s, 2 * s.length + 1 < fuel →
        parseElements fuel depth s = parseElements (fuel + 1) depth s)
    ∧ (∀ depth s, 2 * s.length < fuel →
        parseMembers fuel depth s = parseMembers (fuel + 1) depth s) := by
  induction fuel with
  | zero =>
    refine ⟨?_, ?_, ?_⟩ <;> intro depth s h <;> omega
  | succ fuel ih =>
    obtain ⟨ihV, ihE, ihM⟩ := ih
    have ihV' : ∀ depth r, 2 * r.length < fuel →
        parseValue fuel depth (skipSpace r) = parseValue (fuel + 1) depth (skipSpace r) :=
      fun depth r h => ihV depth _ (by have := length_skipSpace_le r; omega)
    have ihE' : ∀ depth r, 2 * r.length + 1 < fuel →
        parseElements fuel depth (skipSpace r) = parseElements (fuel + 1) depth (skipSpace r) :=
      fun depth r h => ihE depth _ (by have := length_skipSpace_le r; omega)
    have ihM' : ∀ depth r, 2 * r.length < fuel →
        parseMembers fuel depth (skipSpace r) = parseMembers (fuel + 1) depth (skipSpace r) :=
      fun depth r h => ihM depth _ (by have := length_skipSpace_le r; omega)
    refine ⟨?_, ?_, ?_⟩
    · intro depth s hlen
      cases s with
      | nil => simp [parseValue]
      | cons c cs =>
        simp only [parseValue]
        simp only [List.length_cons] at hlen
        repeat' first
          | rfl
          | rw [ihM _ _ (by
              have h1 := length_of_skipSpace_cons ‹skipSpace _ = _ :: _›
              simp only [List.length_cons]
              omega)]
          | rw [ihE _ _ (by
              have h1 := length_of_skipSpace_cons ‹skipSpace _ = _ :: _›
              simp only [List.length_cons]
              omega)]
          | split
    · intro depth s hlen
      rw [parseElements, parseElements, ihV depth s (by omega)]
      cases hv : parseValue (fuel + 1) depth s with
      | none => rfl
      | some p =>
        obtain ⟨v, r1⟩ := p
        have h1 := (parse_length _).1 _ _ _ _ hv
        try simp only []
        cases hs : skipSpace r1 with
        | nil => rfl
        | cons c r2 =>
          have h2 := length_of_skipSpace_cons hs
          try simp only []
          rw [ihE' depth r2 (by omega)]
    · intro depth s hlen
      cases s with
      | nil => simp [parseMembers]
      | cons q cs =>
        simp only [List.length_cons] at hlen
        rw [parseMembers, parseMembers]
        try simp only []
        cases hk : parseString cs with
        | none => rfl
        | some p =>
          obtain ⟨key, r1⟩ := p
          have h1 := parseString_length _ _ _ hk
          try simp only []
          cases hs : skipSpace r1 with
          | nil => rfl
          | cons c2 r2 =>
            have h2 := length_of_skipSpace_cons hs
            try simp only []
            rw [ihV' depth r2 (by omega)]
            cases hv : parseValue (fuel + 1) depth (skipSpace r2) with
            | none => rfl
            | some pv =>
              obtain ⟨v, r3⟩ := pv
              have h3 := (parse_length _).1 _ _ _ _ hv
              have h3' := length_skipSpace_le r2
              try simp only []
              cases hs2 : skipSpace r3 with
              | nil => rfl
              | cons c3 r4 =>
                have h4 := length_of_skipSpace_cons hs2
                try simp only []
                rw [ihM' depth r4 (by omega)]

/-- Any amount of fuel above twice the length of the input gives the same
result. -/
theorem parseValue_fuel (depth : Nat) (s : GoString) (fuel : Nat)
    (h : 2 * s.length < fuel) :
    parseValue fuel depth s = parseValue (2 * s.length + 1) depth s := by
  induction fuel with
  | zero => omega
  | succ fuel ih =>
    by_cases hlt : 2 * s.length < fuel
    · rw [← (parse_fuel_succ fuel).1 depth s hlt, ih hlt]
    · have : fuel = 2 * s.length := by omega
      rw [this]

/-- The fuel `parse` gives to the scanner is enough: with any larger amount the
result is the same, so `parse` rejects a payload only for its syntax. -/
theorem parse_fuel (data : GoString) (fuel : Nat) (h : 2 * data.length + 2 ≤ fuel) :
    parse data =
      match parseValue fuel 0 (skipSpace data) with
      | some (v, rest) => if skipSpace rest = [] then some v else none
      | none => none := by
  have hs := length_skipSpace_le data
  unfold parse
  rw [parseValue_fuel 0 (skipSpace data) fuel (by omega),
    parseValue_fuel 0 (skipSpace data) (2 * data.length + 2) (by omega)]

end json

/-! ## `getKubeadmVersion` -/

namespace json

/-- A version decoded into `ClientVersion` is the old one or the string value of
a `gitVersion` member. -/
theorem decodeClientVersion_members (ms : List (GoString × Value)) (old cv : ClientVersion)
    (h : decodeClientVersion (.object ms) old = some cv) :
    cv.GitVersion = old.GitVersion ∨
      ∃ m ∈ ms, matchesField m.1 (str "gitVersion") = true ∧ m.2 = .string cv.GitVersion := by
  unfold decodeClientVersion at h
  simp only [] at h
  induction ms generalizing old with
  | nil =>
    simp only [List.foldlM_nil] at h
    cases h
    exact Or.inl rfl
  | cons m rest ih =>
    rw [List.foldlM_cons] at h
    by_cases hm : matchesField m.1 (str "gitVersion") = true
    · simp only [hm, if_true] at h
      cases hv : m.2 with
      | string s =>
        rw [hv] at h
        simp only [decodeString, Option.map_some', Option.bind_eq_bind, Option.some_bind] at h
        rcases ih _ h with h1 | ⟨m2, hm2, hk, hs⟩
        · exact Or.inr ⟨m, List.mem_cons_self _ _, hm, by rw [hv, h1]⟩
        · exact Or.inr ⟨m2, List.mem_cons_of_mem _ hm2, hk, hs⟩
      | null =>
        rw [hv] at h
        simp only [decodeString, Option.map_some', Option.bind_eq_bind, Option.some_bind] at h
        rcases ih _ h with h1 | ⟨m2, hm2, hk, hs⟩
        · exact Or.inl h1
        · exact Or.inr ⟨m2, List.mem_cons_of_mem _ hm2, hk, hs⟩
      | bool b => rw [hv] at h; simp [decodeString] at h
      | number n => rw [hv] at h; simp [decodeString] at h
      | array xs => rw [hv] at h; simp [decodeString] at h
      | object xs => rw [hv] at h; simp [decodeString] at h
    · simp only [hm, Bool.false_eq_true, if_false, Option.bind_eq_bind, Option.some_bind] at h
      rcases ih _ h with h1 | ⟨m2, hm2, hk, hs⟩
      · exact Or.inl h1
      · exact Or.inr ⟨m2, List.mem_cons_of_mem _ hm2, hk, hs⟩

/-- A version decoded into `KubeadmVersion` is the old one or the string value
of a `gitVersion` member of an object that is the value of a `clientVersion`
member. -/
theorem decodeKubeadmVersion_members (ms : List (GoString × Value)) (old kv : KubeadmVersion)
    (h : decodeKubeadmVersion (.object ms) old = some kv) :
    kv.ClientVersion.GitVersion = old.ClientVersion.GitVersion ∨
      ∃ m ∈ ms, matchesField m.1 (str "clientVersion") = true ∧
        ∃ ms2, m.2 = .object ms2 ∧
          ∃ m2 ∈ ms2, matchesField m2.1 (str "gitVersion") = true ∧
            m2.2 = .string kv.ClientVersion.GitVersion := by
  unfold decodeKubeadmVersion at h
  simp only [] at h
  induction ms generalizing old with
  | nil =>
    simp only [List.foldlM_nil] at h
    cases h
    exact Or.inl rfl
  | cons m rest ih =>
    rw [List.foldlM_cons] at h
    by_cases hm : matchesField m.1 (str "clientVersion") = true
    · simp only [hm, if_true] at h
      cases hd : decodeClientVersion m.2 old.ClientVersion with
      | none => rw [hd] at h; simp at h
      | some c =>
        rw [hd] at h
        simp only [Option.map_some', Option.bind_eq_bind, Option.some_bind] at h
        rcases ih _ h with h1 | ⟨m2, hm2, hrest⟩
        · simp only [] at h1
          cases hv : m.2 with
          | object ms2 =>
            rw [hv] at hd
            rcases decodeClientVersion_members ms2 _ _ hd with h2 | ⟨m3, hm3, hk, hs⟩
            · exact Or.inl (h1.trans h2)
            · exact Or.inr ⟨m, List.mem_cons_self _ _, hm, ms2, hv, m3, hm3, hk, by rw [hs, h1]⟩
          | null =>
            rw [hv] at hd
            simp only [decodeClientVersion, Option.some.injEq] at hd
            exact Or.inl (by rw [h1, hd])
          | bool b => rw [hv] at hd; simp [decodeClientVersion] at hd
          | number n => rw [hv] at hd; simp [decodeClientVersion] at hd
          | array xs => rw [hv] at hd; simp [decodeClientVersion] at hd
          | string xs => rw [hv] at hd; simp [decodeClientVersion] at hd
        · exact Or.inr ⟨m2, List.mem_cons_of_mem _ hm2, hrest⟩
    · simp only [hm, Bool.false_eq_true, if_false, Option.bind_eq_bind, Option.some_bind] at h
      rcases ih _ h with h1 | ⟨m2, hm2, hrest⟩
      · exact Or.inl h1
      · exact Or.inr ⟨m2, List.mem_cons_of_mem _ hm2, hrest⟩

/-- An object without a `gitVersion` member leaves the inner struct as it is. -/
theorem decodeClientVersion_absent (ms : List (GoString × Value)) (old : ClientVersion)
    (h : ∀ m ∈ ms, matchesField m.1 (str "gitVersion") = false) :
    decodeClientVersion (.object ms) old = some old := by
  unfold decodeClientVersion
  simp only []
  induction ms with
  | nil => rfl
  | cons m rest ih =>
    rw [List.foldlM_cons]
    simp only [h m (List.mem_cons_self _ _), Bool.false_eq_true, if_false,
      Option.bind_eq_bind, Option.some_bind]
    exact ih (fun m2 hm2 => h m2 (List.mem_cons_of_mem _ hm2))

/-- An object in which every `clientVersion` member is `null` or an object
without a `gitVersion` member leaves the struct as it is. -/
theorem decodeKubeadmVersion_absent (ms : List (GoString × Value)) (old : KubeadmVersion)
    (h : ∀ m ∈ ms, matchesField m.1 (str "clientVersion") = true →
      m.2 = .null ∨ ∃ ms2, m.2 = .object ms2 ∧
        ∀ m2 ∈ ms2, matchesField m2.1 (str "gitVersion") = false) :
    decodeKubeadmVersion (.object ms) old = some old := by
  unfold decodeKubeadmVersion
  simp only []
  induction ms with
  | nil => rfl
  | cons m rest ih =>
    rw [List.foldlM_cons]
    have hrest := ih (fun m2 hm2 => h m2 (List.mem_cons_of_mem _ hm2))
    by_cases hm : matchesField m.1 (str "clientVersion") = true
    · have hstep : decodeClientVersion m.2 old.ClientVersion = some old.ClientVersion := by
        rcases h m (List.mem_cons_self _ _) hm with hnull | ⟨ms2, hobj, habs⟩
        · rw [hnull]; rfl
        · rw [hobj]; exact decodeClientVersion_absent ms2 _ habs
      simp only [hm, if_true, hstep, Option.map_some', Option.bind_eq_bind, Option.some_bind]
      exact hrest
    · simp only [hm, Bool.false_eq_true, if_false, Option.bind_eq_bind, Option.some_bind]
      exact hrest

end json

/-- C7, as the claim states it, fails: the payloads `{}` and
`{"clientVersion": {"major": "1"}}` are JSON documents without the nested
`gitVersion` field, and for both `getKubeadmVersion` returns the empty version
and no error. -/
theorem getKubeadmVersion_accepts_absent_field :
    json.parse (str "\x7b\x7d") = some (.object [])
    ∧ getKubeadmVersion (quietWorld [] (str "\x7b\x7d")) = .ok []
    ∧ json.parse (str "\x7b\"clientVersion\": \x7b\"major\": \"1\"\x7d\x7d")
        = some (.object [(str "clientVersion", .object [(str "major", .string (str "1"))])])
    ∧ getKubeadmVersion (quietWorld [] (str "\x7b\"clientVersion\": \x7b\"major\": \"1\"\x7d\x7d"))
        = .ok [] :=
  ⟨by rfl, by rfl, by rfl, by rfl⟩

/-- C7 (amended): when kubeadm is found and its version command succeeds,
`getKubeadmVersion` fails with the malformed-version-output error if the payload
does not parse as JSON; for a payload that is a JSON object in which the nested
`clientVersion.gitVersion` field is absent (every `clientVersion` member is
`null` or an object without a `gitVersion` member) it returns the empty version
and no error; and it returns a version that is not empty only when the payload
is an object in which the nested `clientVersion.gitVersion` field is present
with that string as its value. -/
theorem getKubeadmVersion_payload (w : World)
    (hlook : w.lookPath Kubeadm = none)
    (hcmd : (w.command [Kubeadm, str "version", str "-o", str "json"]).err = none) :
    (json.parse (w.command [Kubeadm, str "version", str "-o", str "json"]).out = none →
        getKubeadmVersion w =
          .error (str "failed to unmarshal kubeadm version " ++
            w.jsonErrorText (w.command [Kubeadm, str "version", str "-o", str "json"]).out))
    ∧ (∀ ms, json.parse (w.command [Kubeadm, str "version", str "-o", str "json"]).out
          = some (.object ms) →
        (∀ m ∈ ms, json.matchesField m.1 (str "clientVersion") = true →
          m.2 = .null ∨ ∃ ms2, m.2 = .object ms2 ∧
            ∀ m2 ∈ ms2, json.matchesField m2.1 (str "gitVersion") = false) →
        getKubeadmVersion w = .ok [])
    ∧ (∀ v, getKubeadmVersion w = .ok v → v ≠ [] →
        ∃ ms, json.parse (w.command [Kubeadm, str "version", str "-o", str "json"]).out
            = some (.object ms) ∧
          ∃ m ∈ ms, json.matchesField m.1 (str "clientVersion") = true ∧
            ∃ ms2, m.2 = .object ms2 ∧
              ∃ m2 ∈ ms2, json.matchesField m2.1 (str "gitVersion") = true ∧
                m2.2 = .string v) := by
  refine ⟨?_, ?_, ?_⟩
  · intro hp
    simp only [getKubeadmVersion, hlook, hcmd, json.UnmarshalKubeadmVersion, hp]
  · intro ms hp habs
    simp only [getKubeadmVersion, hlook, hcmd, json.UnmarshalKubeadmVersion, hp,
      json.decodeKubeadmVersion_absent ms _ habs]
  · intro v hv hne
    simp only [getKubeadmVersion, hlook, hcmd, json.UnmarshalKubeadmVersion] at hv
    cases hp : json.parse (w.command [Kubeadm, str "version", str "-o", str "json"]).out with
    | none => rw [hp] at hv; simp at hv
    | some doc =>
      rw [hp] at hv
      simp only [] at hv
      cases hd : json.decodeKubeadmVersion doc { ClientVersion := { GitVersion := [] } } with
      | none => rw [hd] at hv; simp at hv
      | some kv =>
        rw [hd] at hv
        simp only [Except.ok.injEq] at hv
        cases doc with
        | object ms =>
          rcases json.decodeKubeadmVersion_members ms _ _ hd with h1 | hex
          · exact absurd (hv.symm.trans h1) hne
          · rw [hv] at hex
            exact ⟨ms, rfl, hex⟩
        | null =>
          simp only [json.decodeKubeadmVersion, Option.some.injEq] at hd
          rw [← hd] at hv
          exact absurd hv.symm hne
        | bool b => simp [json.decodeKubeadmVersion] at hd
        | number n => simp [json.decodeKubeadmVersion] at hd
        | array xs => simp [json.decodeKubeadmVersion] at hd
        | string xs => simp [json.decodeKubeadmVersion] at hd

theorem getKubeadmVersion_payload_witness :
    getKubeadmVersion (quietWorld [] kubeadmVersionPayload) = .ok (str "v1.22.8")
    ∧ ∃ ms, json.parse
          ((quietWorld [] kubeadmVersionPayload).command
            [Kubeadm, str "version", str "-o", str "json"]).out = some (.object ms) ∧
        ∃ m ∈ ms, json.matchesField m.1 (str "clientVersion") = true ∧
          ∃ ms2, m.2 = .object ms2 ∧
            ∃ m2 ∈ ms2, json.matchesField m2.1 (str "gitVersion") = true ∧
              m2.2 = .string (str "v1.22.8") :=
  ⟨by rfl,
    (getKubeadmVersion_payload (quietWorld [] kubeadmVersionPayload) (by rfl) (by rfl)).2.2
      (str "v1.22.8") (by rfl) (by decide)⟩

/-! ## `PushImages` -/

/-- The error of the `k`-th worker, if it fails. -/
theorem pushWorker_eq (img : Image) (images : List GoString) (outcome : Nat → MirrorOutcome)
    (ch : ErrChan) (k : Nat) :
    pushWorker img images outcome ch k =
      match doPushImage img (images.getD k []) (outcome k) with
      | some err => ch.send err
      | none => some ch := rfl

/-- As long as the channel has room for the errors of the workers of `sched`,
none of them blocks, and the channel ends up holding their errors in the order
in which they finished. -/
theorem runWorkers_buffer (img : Image) (images : List GoString) (outcome : Nat → MirrorOutcome)
    (sched : List Nat) (ch : ErrChan)
    (hroom : ch.buf.length +
      (sched.filterMap (fun k => doPushImage img (images.getD k []) (outcome k))).length ≤ ch.cap) :
    runWorkers img images outcome sched ch =
      some (ErrChan.mk
        (ch.buf ++ sched.filterMap (fun k => doPushImage img (images.getD k []) (outcome k)))
        ch.cap) := by
  induction sched generalizing ch with
  | nil => simp [runWorkers]
  | cons k rest ih =>
    unfold runWorkers
    rw [pushWorker_eq]
    cases hk : doPushImage img (images.getD k []) (outcome k) with
    | none =>
      simp only [List.filterMap_cons, hk] at hroom ⊢
      exact ih ch hroom
    | some err =>
      simp only [List.filterMap_cons, hk, List.length_cons] at hroom ⊢
      have hlt : ch.buf.length < ch.cap := by omega
      simp only [ErrChan.send, hlt, if_true]
      rw [ih]
      · simp
      · simp only [List.length_append, List.length_singleton]
        omega

/-- C8: once the login has succeeded, for every list of images, every outcome of
each image's registry operations and every order in which the workers finish,
`PushImages` returns (no worker blocks on the channel, whose capacity is the
number of images); the value it returns is the error of the failed worker that
finished first; it is an error exactly when some worker failed, the error is one
a failed worker reported, and it is nil when every worker succeeded. -/
theorem PushImages_reports_worker_failure (img : Image) (images : List GoString)
    (login : CmdResult) (outcome : Nat → MirrorOutcome) (sched : List Nat)
    (hlogin : login.err = none) (hsched : sched.Perm (List.range images.length)) :
    ∃ r, PushImages img images login outcome sched = some r
      ∧ r = (sched.filterMap
              (fun k => doPushImage img (images.getD k []) (outcome k))).head?
      ∧ (r ≠ none ↔
          ∃ k, k < images.length ∧ doPushImage img (images.getD k []) (outcome k) ≠ none)
      ∧ (∀ err, r = some err →
          ∃ k, k < images.length ∧ doPushImage img (images.getD k []) (outcome k) = some err)
      ∧ ((∀ k, k < images.length → doPushImage img (images.getD k []) (outcome k) = none) →
          r = none) := by
  set f : Nat → Option GoError :=
    fun k => doPushImage img (images.getD k []) (outcome k) with hf
  have hmem : ∀ k, k ∈ sched ↔ k < images.length := by
    intro k
    rw [hsched.mem_iff, List.mem_range]
  have hlen : sched.length = images.length := by
    rw [hsched.length_eq, List.length_range]
  have hroom : ([] : List GoError).length + (sched.filterMap f).length ≤ images.length := by
    have := List.length_filterMap_le f sched
    simp only [List.length_nil, Nat.zero_add]
    omega
  have hrun := runWorkers_buffer img images outcome sched { buf := [], cap := images.length } hroom
  have hres : PushImages img images login outcome sched = some ((sched.filterMap f).head?) := by
    simp only [PushImages, hlogin, hrun, List.nil_append, selectErr]
    cases sched.filterMap f <;> rfl
  have hsome : ∀ err, (sched.filterMap f).head? = some err →
      ∃ k, k < images.length ∧ f k = some err := by
    intro err herr
    have hin : err ∈ sched.filterMap f := List.mem_of_mem_head? herr
    obtain ⟨k, hk, hfk⟩ := List.mem_filterMap.1 hin
    exact ⟨k, (hmem k).1 hk, hfk⟩
  have hnone : (∀ k, k < images.length → f k = none) → (sched.filterMap f).head? = none := by
    intro hall
    cases hh : (sched.filterMap f).head? with
    | none => rfl
    | some err =>
      obtain ⟨k, hk, hfk⟩ := hsome err hh
      rw [hall k hk] at hfk
      cases hfk
  refine ⟨_, hres, rfl, ?_, hsome, hnone⟩
  constructor
  · intro hne
    cases hh : (sched.filterMap f).head? with
    | none => exact absurd hh hne
    | some err =>
      obtain ⟨k, hk, hfk⟩ := hsome err hh
      refine ⟨k, hk, ?_⟩
      show f k ≠ none
      rw [hfk]
      simp
  · rintro ⟨k, hk, hfk⟩ hnil
    cases hfk' : f k with
    | none => exact hfk hfk'
    | some err =>
      have hin : err ∈ sched.filterMap f :=
        List.mem_filterMap.2 ⟨k, (hmem k).2 hk, hfk'⟩
      rw [List.head?_eq_none_iff] at hnil
      rw [hnil] at hin
      cases hin

theorem PushImages_reports_worker_failure_witness :
    ∃ r, PushImages (mkImage false [] [] []) [str "k8s.gcr.io/etcd:3.5.0-0", str "docker.io/nginx:latest"]
          { out := [], err := none }
          (fun k => if k = 0 then mirrorPullFails (str "pull failed") else mirrorOk) [1, 0] = some r
      ∧ r = (([1, 0] : List Nat).filterMap
              (fun k => doPushImage (mkImage false [] [] [])
                (([str "k8s.gcr.io/etcd:3.5.0-0", str "docker.io/nginx:latest"] : List GoString).getD k [])
                ((fun k => if k = 0 then mirrorPullFails (str "pull failed") else mirrorOk) k))).head?
      ∧ (r ≠ none ↔
          ∃ k, k < ([str "k8s.gcr.io/etcd:3.5.0-0", str "docker.io/nginx:latest"] : List GoString).length ∧
            doPushImage (mkImage false [] [] [])
                (([str "k8s.gcr.io/etcd:3.5.0-0", str "docker.io/nginx:latest"] : List GoString).getD k [])
                ((fun k => if k = 0 then mirrorPullFails (str "pull failed") else mirrorOk) k) ≠ none)
      ∧ (∀ err, r = some err →
          ∃ k, k < ([str "k8s.gcr.io/etcd:3.5.0-0", str "docker.io/nginx:latest"] : List GoString).length ∧
            doPushImage (mkImage false [] [] [])
                (([str "k8s.gcr.io/etcd:3.5.0-0", str "docker.io/nginx:latest"] : List GoString).getD k [])
                ((fun k => if k = 0 then mirrorPullFails (str "pull failed") else mirrorOk) k) = some err)
      ∧ ((∀ k, k < ([str "k8s.gcr.io/etcd:3.5.0-0", str "docker.io/nginx:latest"] : List GoString).length →
            doPushImage (mkImage false [] [] [])
                (([str "k8s.gcr.io/etcd:3.5.0-0", str "docker.io/nginx:latest"] : List GoString).getD k [])
                ((fun k => if k = 0 then mirrorPullFails (str "pull failed") else mirrorOk) k) = none) →
          r = none) :=
  PushImages_reports_worker_failure (mkImage false [] [] [])
    [str "k8s.gcr.io/etcd:3.5.0-0", str "docker.io/nginx:latest"] { out := [], err := none }
    (fun k => if k = 0 then mirrorPullFails (str "pull failed") else mirrorOk) [1, 0]
    (by rfl) (by decide)
